import Mathlib

/-!
Verification of the treap (`CartesianTree`) from `CartesianTree.py`.

The tree is embedded shallowly: a Python `__Node` reference is either `None`
(`Tree.nil`) or a node carrying `value`, `priority`, the cached `size` field
and the two children.  Values live in `Int` (the Python code only needs a
total order), priorities in `Nat`.  The cached `size` is stored in the
structure exactly as in the source and recomputed by `recalc`
(`__Node.__recalc`); `sizeof` reads the stored field.  Fallible operations
return `Except`; dereferencing an absent child (Python `AttributeError`)
is modelled by the distinguished error `Err.noneDeref`.
-/

namespace CartesianTree

/-- A treap node reference: `nil` is Python's `None`; a node stores
`value`, `priority`, the cached subtree `size` and the two children. -/
inductive Tree where
  | nil : Tree
  | node (left : Tree) (value : Int) (priority : Nat) (size : Nat) (right : Tree) : Tree
  deriving DecidableEq, Repr

open Tree

/-- Embeds `__Node.sizeof`: stored size of a possibly absent node, 0 for `None`. -/
def sizeof : Tree → Nat
  | nil => 0
  | node _ _ _ s _ => s

/-- Embeds `__Node.__recalc`: recompute the stored size from the children's stored sizes. -/
def recalc : Tree → Tree
  | nil => nil
  | node l v p _ r => node l v p (sizeof l + 1 + sizeof r) r

/-- Embeds `__Node.split(node, value)`: partition a tree by a pivot value into
(less, center, greater), following the source's three branches
(`node.value < value`, `== value`, else). -/
def split : Tree → Int → Tree × Tree × Tree
  | nil, _ => (nil, nil, nil)
  | node l v p s r, value =>
    if v < value then
      let (lo, c, hi) := split r value
      (recalc (node l v p s lo), c, hi)
    else if v = value then
      (l, recalc (node nil v p s nil), r)
    else
      let (lo, c, hi) := split l value
      (lo, c, recalc (node hi v p s r))

/-- Embeds `__Node.merge` on exactly two trees: the empty cases, then the
priority comparison `left.priority > right.priority`. -/
def merge (t1 t2 : Tree) : Tree :=
  match t1, t2 with
  | nil, t => t
  | node ll lv lp ls lr, nil => node ll lv lp ls lr
  | node ll lv lp ls lr, node rl rv rp rs rr =>
    if lp > rp then
      recalc (node ll lv lp ls (merge lr (node rl rv rp rs rr)))
    else
      recalc (node (merge (node ll lv lp ls lr) rl) rv rp rs rr)
termination_by sizeOf t1 + sizeOf t2
decreasing_by
  all_goals simp
  all_goals omega

/-- Embeds `__Node.merge(*subtrees)` for a non-empty argument list: one tree is
returned as is, more are reduced left-associatively by pairwise `merge`. -/
def mergeMany : Tree → List Tree → Tree
  | t, [] => t
  | t, u :: us => mergeMany (merge t u) us

/-- The three-argument `merge(left, center, right)` used by the facade. -/
def merge3 (a b c : Tree) : Tree := mergeMany a [b, c]

/-- Failure modes of the embedded operations: `IndexError`, `AttributeError`
on a `None` child, `ValueError('no such element')`, `ValueError()` in `remove`. -/
inductive Err where
  | outOfRange : Err
  | noneDeref : Err
  | noSuchElement : Err
  deriving DecidableEq, Repr

/-- Embeds `__Node.get_kth_node(self, k)`: normalize a negative index by the stored
size, bounds-check, then descend by the left child's stored size.  Calling it
on an absent node (Python `AttributeError`) yields `Err.noneDeref`. -/
def get_kth_node : Tree → Int → Except Err Tree
  | nil, _ => .error .noneDeref
  | node l v p s r, k0 =>
    let k := if k0 < 0 then (s : Int) + k0 else k0
    if 0 ≤ k ∧ k < (s : Int) then
      let ls : Int := (sizeof l : Int)
      if ls = k then .ok (node l v p s r)
      else if ls > k then get_kth_node l k
      else get_kth_node r (k - ls - 1)
    else .error .outOfRange

/-- Value stored at the root of a tree (unused on `nil`). -/
def val : Tree → Int
  | nil => 0
  | node _ v _ _ _ => v

/-- Embeds `__contains__`: split on the value, test the center, merge the three
parts back; returns the answer and the rebuilt root. -/
def contains (root : Tree) (v : Int) : Bool × Tree :=
  let (l, c, r) := split root v
  (c ≠ nil, merge3 l c r)

/-- Embeds `add`: membership test first (which rebuilds the root); if absent,
split and merge in a fresh single node carrying the supplied priority. -/
def add (root : Tree) (v : Int) (p : Nat) : Tree :=
  let (mem, root') := contains root v
  if mem then root'
  else
    let (l, _, r) := split root' v
    merge3 l (node nil v p 1 nil) r

/-- Embeds `remove`: membership test first (which rebuilds the root, also on the
failure path); if absent raise `ValueError` carrying the rebuilt root,
otherwise split and merge back only the low and high parts. -/
def remove (root : Tree) (v : Int) : Except Tree Tree :=
  let (mem, root') := contains root v
  if ¬ mem then .error root'
  else
    let (l, _, r) := split root' v
    .ok (merge l r)

/-- Embeds `discard`: `remove`, with the `ValueError` swallowed. -/
def discard (root : Tree) (v : Int) : Tree :=
  match remove root v with
  | .ok t => t
  | .error t => t

/-- Embeds `__len__`: stored size of the root. -/
def lengthOf (root : Tree) : Nat := sizeof root

/-- Embeds `__getitem__`: `IndexError` on an empty tree, otherwise the value of the
k-th node. -/
def getItem (root : Tree) (k : Int) : Except Err Int :=
  match root with
  | nil => .error .outOfRange
  | t => (get_kth_node t k).map val

/-- Embeds `next`: split on the value; fail with `no such element` when the high
part is empty, otherwise its rank-0 value; the three parts are merged back
into the root in every case (`finally`). -/
def nextVal (root : Tree) (v : Int) : Except Err Int × Tree :=
  let (l, c, r) := split root v
  let res : Except Err Int :=
    if sizeof r = 0 then .error .noSuchElement
    else (get_kth_node r 0).map val
  (res, merge3 l c r)

/-- Embeds `prev`: symmetric to `next`, using rank −1 of the low part. -/
def prevVal (root : Tree) (v : Int) : Except Err Int × Tree :=
  let (l, c, r) := split root v
  let res : Except Err Int :=
    if sizeof l = 0 then .error .noSuchElement
    else (get_kth_node l (-1)).map val
  (res, merge3 l c r)

/-- Embeds `__init__(values)`: start from an empty root and `add` each value; each
prospective insertion carries the priority the seeded generator would hand
to `__Node.__init__`. -/
def ofList (ps : List (Int × Nat)) : Tree :=
  ps.foldl (fun t vp => add t vp.1 vp.2) nil

/-- In-order value sequence: the ordered materialization `repr(list(self))`
produces (iteration is rank access 0,1,2,…). -/
def toList : Tree → List Int
  | nil => []
  | node l v _ _ r => toList l ++ v :: toList r

/-- In-order sequence of nodes as (value, priority) pairs: the node content
that `split`/`merge` move around. -/
def nodes : Tree → List (Int × Nat)
  | nil => []
  | node l v p _ r => nodes l ++ (v, p) :: nodes r

/-- All values in the tree satisfy `p`. -/
def allVals (p : Int → Bool) : Tree → Bool
  | nil => true
  | node l v _ _ r => p v && allVals p l && allVals p r

/-- Search-tree order invariant (spec invariant 1). -/
def isBST : Tree → Bool
  | nil => true
  | node l v _ _ r => allVals (· < v) l && allVals (v < ·) r && isBST l && isBST r

/-- The root priority (if any) is at most `b`: absent child as priority −∞. -/
def prioLe : Tree → Nat → Bool
  | nil, _ => true
  | node _ _ q _ _, b => q ≤ b

/-- Heap order invariant (spec invariant 2): every node's priority dominates
its children's. -/
def heapOk : Tree → Bool
  | nil => true
  | node l _ p _ r => prioLe l p && prioLe r p && heapOk l && heapOk r

/-- Size-consistency invariant (spec invariant 3): every stored size equals
`size(left) + 1 + size(right)`. -/
def sizeOk : Tree → Bool
  | nil => true
  | node l _ _ s r => (s == sizeof l + 1 + sizeof r) && sizeOk l && sizeOk r

/-- All three invariants together. -/
def inv (t : Tree) : Bool := isBST t && heapOk t && sizeOk t

/-- Every priority in the tree is at most `b`. -/
def allPrio (b : Nat) : Tree → Bool
  | nil => true
  | node l _ p _ r => p ≤ b && allPrio b l && allPrio b r

/-- Python-style signed indexing into a list: normalize a negative index by
the length, then bounds-check (reference form of the spec's rank access). -/
def listIndex (xs : List Int) (k : Int) : Except Err Int :=
  let k' := if k < 0 then (xs.length : Int) + k else k
  if 0 ≤ k' ∧ k' < (xs.length : Int) then .ok (xs.getD k'.toNat 0)
  else .error .outOfRange

/-- A facade call that can change the stored root. -/
inductive Op where
  | addOp : Int → Nat → Op
  | removeOp : Int → Op
  | discardOp : Int → Op
  deriving DecidableEq, Repr

/-- State after one facade call.  After a failed `remove` the facade keeps
the root rebuilt by the membership test, as in the source. -/
def applyOp (t : Tree) : Op → Tree
  | .addOp v p => add t v p
  | .removeOp v =>
    match remove t v with
    | .ok u => u
    | .error u => u
  | .discardOp v => discard t v

/-- State after a whole call history, starting from the empty tree. -/
def runOps (ops : List Op) : Tree := ops.foldl applyOp nil

/-- One step of the reference history semantics: was `v` added and not
subsequently removed? -/
def presentStep (v : Int) (b : Bool) : Op → Bool
  | .addOp w _ => if w = v then true else b
  | .removeOp w => if w = v then false else b
  | .discardOp w => if w = v then false else b

/-- Whether `v` was added and not subsequently removed in the call history. -/
def presentAfter (v : Int) (ops : List Op) : Bool :=
  ops.foldl (presentStep v) false

/-- Reference form: the ascending sequence of the distinct values of a list. -/
def sortedDistinct (xs : List Int) : List Int := xs.toFinset.sort (· ≤ ·)

/-- The (value, priority) pair at the root of a tree, if any. -/
def rootInfo : Tree → Option (Int × Nat)
  | nil => none
  | node _ v p _ _ => some (v, p)

/-- Example tree `{2, 5, 7}` with heap-ordered priorities and correct sizes. -/
def exTree : Tree := node (node nil 2 3 1 nil) 5 9 3 (node nil 7 4 1 nil)

/-- Example singleton tree `{1}`. -/
def exLeft : Tree := node nil 1 5 1 nil

/-- Example singleton tree `{3}`. -/
def exMid : Tree := node nil 3 3 1 nil

/-- Example singleton tree `{6}`. -/
def exRight : Tree := node nil 6 4 1 nil

/-! ### Basic structural lemmas -/

theorem toList_eq_map (t : Tree) : toList t = (nodes t).map Prod.fst := by
  induction t with
  | nil => rfl
  | node l v p s r ihl ihr => simp [toList, nodes, ihl, ihr]

theorem nodes_recalc (t : Tree) : nodes (recalc t) = nodes t := by
  cases t <;> rfl

theorem toList_recalc (t : Tree) : toList (recalc t) = toList t := by
  cases t <;> rfl

theorem mem_nodes_node {x : Int × Nat} {l r : Tree} {v : Int} {pr s : Nat} :
    x ∈ nodes (node l v pr s r) ↔ x ∈ nodes l ∨ x = (v, pr) ∨ x ∈ nodes r := by
  show x ∈ nodes l ++ (v, pr) :: nodes r ↔ _
  rw [List.mem_append, List.mem_cons]

theorem allVals_iff (p : Int → Bool) (t : Tree) :
    allVals p t = true ↔ ∀ x ∈ nodes t, p x.1 = true := by
  induction t with
  | nil =>
    constructor
    · intro _ x hx; cases hx
    · intro _; rfl
  | node l v pr s r ihl ihr =>
    rw [show allVals p (node l v pr s r) = (p v && allVals p l && allVals p r) from rfl,
      Bool.and_eq_true, Bool.and_eq_true, ihl, ihr]
    constructor
    · rintro ⟨⟨hv, hl⟩, hr⟩ x hx
      rcases mem_nodes_node.1 hx with hx | rfl | hx
      · exact hl x hx
      · exact hv
      · exact hr x hx
    · intro h
      exact ⟨⟨h (v, pr) (mem_nodes_node.2 (Or.inr (Or.inl rfl))),
        fun x hx => h x (mem_nodes_node.2 (Or.inl hx))⟩,
        fun x hx => h x (mem_nodes_node.2 (Or.inr (Or.inr hx)))⟩

theorem allPrio_iff (b : Nat) (t : Tree) :
    allPrio b t = true ↔ ∀ x ∈ nodes t, x.2 ≤ b := by
  induction t with
  | nil =>
    constructor
    · intro _ x hx; cases hx
    · intro _; rfl
  | node l v pr s r ihl ihr =>
    rw [show allPrio b (node l v pr s r) = (decide (pr ≤ b) && allPrio b l && allPrio b r)
        from rfl,
      Bool.and_eq_true, Bool.and_eq_true, ihl, ihr, decide_eq_true_iff]
    constructor
    · rintro ⟨⟨hv, hl⟩, hr⟩ x hx
      rcases mem_nodes_node.1 hx with hx | rfl | hx
      · exact hl x hx
      · exact hv
      · exact hr x hx
    · intro h
      exact ⟨⟨h (v, pr) (mem_nodes_node.2 (Or.inr (Or.inl rfl))),
        fun x hx => h x (mem_nodes_node.2 (Or.inl hx))⟩,
        fun x hx => h x (mem_nodes_node.2 (Or.inr (Or.inr hx)))⟩

theorem allPrio_prioLe {b : Nat} {t : Tree} (h : allPrio b t = true) :
    prioLe t b = true := by
  cases t with
  | nil => rfl
  | node l v p s r =>
    simp [allPrio, Bool.and_eq_true] at h
    simpa [prioLe] using h.1.1

theorem heap_allPrio {t : Tree} (hheap : heapOk t = true) :
    ∀ b, prioLe t b = true → allPrio b t = true := by
  induction t with
  | nil => intro b _; rfl
  | node l v p s r ihl ihr =>
    intro b hb
    simp [heapOk, Bool.and_eq_true] at hheap
    simp [prioLe] at hb
    obtain ⟨⟨⟨hpl, hpr⟩, hl⟩, hr⟩ := hheap
    have hl' := ihl hl p hpl
    have hr' := ihr hr p hpr
    simp [allPrio, Bool.and_eq_true, hb]
    refine ⟨(allPrio_iff _ _).2 fun x hx => le_trans ?_ hb,
      (allPrio_iff _ _).2 fun x hx => le_trans ?_ hb⟩
    · exact (allPrio_iff _ _).1 hl' x hx
    · exact (allPrio_iff _ _).1 hr' x hx

theorem sizeOk_sizeof {t : Tree} (h : sizeOk t = true) :
    sizeof t = (nodes t).length := by
  induction t with
  | nil => rfl
  | node l v p s r ihl ihr =>
    rw [show sizeOk (node l v p s r)
        = ((s == sizeof l + 1 + sizeof r) && sizeOk l && sizeOk r) from rfl,
      Bool.and_eq_true, Bool.and_eq_true, beq_iff_eq] at h
    obtain ⟨⟨hs, hl⟩, hr⟩ := h
    show s = (nodes l ++ (v, p) :: nodes r).length
    rw [hs, ihl hl, ihr hr, List.length_append, List.length_cons]
    omega

theorem isBST_pairwise {t : Tree} (h : isBST t = true) :
    (nodes t).Pairwise (fun a b => a.1 < b.1) := by
  induction t with
  | nil => exact List.Pairwise.nil
  | node l v p s r ihl ihr =>
    rw [show isBST (node l v p s r)
        = (allVals (· < v) l && allVals (v < ·) r && isBST l && isBST r) from rfl,
      Bool.and_eq_true, Bool.and_eq_true, Bool.and_eq_true] at h
    obtain ⟨⟨⟨hvl, hvr⟩, hl⟩, hr⟩ := h
    have hvl' := (allVals_iff _ _).1 hvl
    have hvr' := (allVals_iff _ _).1 hvr
    show (nodes l ++ (v, p) :: nodes r).Pairwise (fun a b => a.1 < b.1)
    rw [List.pairwise_append]
    refine ⟨ihl hl, ?_, fun a ha b hb => ?_⟩
    · rw [List.pairwise_cons]
      refine ⟨fun y hy => ?_, ihr hr⟩
      have := hvr' y hy; simpa using this
    · have ha' : a.1 < v := by simpa using hvl' a ha
      rcases List.mem_cons.1 hb with rfl | hb
      · exact ha'
      · have hb' : v < b.1 := by simpa using hvr' b hb
        exact lt_trans ha' hb'

/-! ### Decomposing a sorted list around a pivot -/

theorem sorted_filter_decompose {α : Type} (key : α → Int) (v : Int) :
    ∀ xs : List α, xs.Pairwise (fun a b => key a < key b) →
      xs.filter (fun x => key x < v) ++ xs.filter (fun x => key x = v)
        ++ xs.filter (fun x => v < key x) = xs := by
  intro xs
  induction xs with
  | nil => intro _; rfl
  | cons x xs ih =>
    intro h
    rw [List.pairwise_cons] at h
    obtain ⟨hx, hxs⟩ := h
    rcases lt_trichotomy (key x) v with h1 | h1 | h1
    · have e1 : (x :: xs).filter (fun y => key y < v) = x :: xs.filter (fun y => key y < v) := by
        simp [List.filter_cons, h1]
      have e2 : (x :: xs).filter (fun y => key y = v) = xs.filter (fun y => key y = v) := by
        simp [List.filter_cons, h1.ne]
      have e3 : (x :: xs).filter (fun y => v < key y) = xs.filter (fun y => v < key y) := by
        simp [List.filter_cons, lt_asymm h1]
      rw [e1, e2, e3, List.cons_append, List.cons_append, ih hxs]
    · have e1 : (x :: xs).filter (fun y => key y < v) = [] := by
        rw [List.filter_eq_nil_iff]
        intro a ha
        rcases List.mem_cons.1 ha with rfl | ha
        · simp [h1]
        · have := hx a ha; simp; omega
      have e2 : (x :: xs).filter (fun y => key y = v) = [x] := by
        have : xs.filter (fun y => key y = v) = [] := by
          rw [List.filter_eq_nil_iff]
          intro a ha
          have := hx a ha; simp; omega
        simp [List.filter_cons, h1, this]
      have e3 : (x :: xs).filter (fun y => v < key y) = xs := by
        rw [List.filter_cons, if_neg (by simp [h1])]
        rw [List.filter_eq_self.2]
        intro a ha
        have := hx a ha; simp; omega
      rw [e1, e2, e3, List.nil_append, List.singleton_append]
    · have e1 : (x :: xs).filter (fun y => key y < v) = [] := by
        rw [List.filter_eq_nil_iff]
        intro a ha
        rcases List.mem_cons.1 ha with rfl | ha
        · simp; omega
        · have := hx a ha; simp; omega
      have e2 : (x :: xs).filter (fun y => key y = v) = [] := by
        rw [List.filter_eq_nil_iff]
        intro a ha
        rcases List.mem_cons.1 ha with rfl | ha
        · simp; omega
        · have := hx a ha; simp; omega
      have e3 : (x :: xs).filter (fun y => v < key y) = x :: xs := by
        rw [List.filter_eq_self.2]
        intro a ha
        rcases List.mem_cons.1 ha with rfl | ha
        · simp [h1]
        · have := hx a ha; simp; omega
      rw [e1, e2, e3, List.nil_append, List.nil_append]

/-! ### Unfolding lemmas for the invariants and for `split` -/

theorem isBST_node_iff {l r : Tree} {v : Int} {p s : Nat} :
    isBST (node l v p s r) = true ↔
      allVals (· < v) l = true ∧ allVals (v < ·) r = true
        ∧ isBST l = true ∧ isBST r = true := by
  rw [show isBST (node l v p s r)
      = (allVals (· < v) l && allVals (v < ·) r && isBST l && isBST r) from rfl]
  simp [Bool.and_eq_true, and_assoc]

theorem heapOk_node_iff {l r : Tree} {v : Int} {p s : Nat} :
    heapOk (node l v p s r) = true ↔
      prioLe l p = true ∧ prioLe r p = true ∧ heapOk l = true ∧ heapOk r = true := by
  rw [show heapOk (node l v p s r)
      = (prioLe l p && prioLe r p && heapOk l && heapOk r) from rfl]
  simp [Bool.and_eq_true, and_assoc]

theorem sizeOk_node_iff {l r : Tree} {v : Int} {p s : Nat} :
    sizeOk (node l v p s r) = true ↔
      s = sizeof l + 1 + sizeof r ∧ sizeOk l = true ∧ sizeOk r = true := by
  rw [show sizeOk (node l v p s r)
      = ((s == sizeof l + 1 + sizeof r) && sizeOk l && sizeOk r) from rfl]
  simp [Bool.and_eq_true, and_assoc]

theorem inv_iff {t : Tree} :
    inv t = true ↔ isBST t = true ∧ heapOk t = true ∧ sizeOk t = true := by
  rw [inv]; simp [Bool.and_eq_true, and_assoc]

theorem split_node_lt {l r : Tree} {v0 : Int} {p s : Nat} {v : Int} (h : v0 < v) :
    split (node l v0 p s r) v
      = (recalc (node l v0 p s (split r v).1), (split r v).2.1, (split r v).2.2) := by
  simp only [split, if_pos h]

theorem split_node_self {l r : Tree} {v0 : Int} {p s : Nat} :
    split (node l v0 p s r) v0 = (l, recalc (node nil v0 p s nil), r) := by
  simp only [split, if_neg (lt_irrefl v0)]
  simp

theorem split_node_gt {l r : Tree} {v0 : Int} {p s : Nat} {v : Int} (h : v < v0) :
    split (node l v0 p s r) v
      = ((split l v).1, (split l v).2.1, recalc (node (split l v).2.2 v0 p s r)) := by
  simp only [split, if_neg (lt_asymm h), if_neg (ne_of_gt h)]

/-- The node lists of the three parts of a `split` are the three filters of
the input's node list by the pivot. -/
theorem split_nodes {t : Tree} (v : Int) (h : isBST t = true) :
    nodes (split t v).1 = (nodes t).filter (fun x => x.1 < v)
    ∧ nodes (split t v).2.1 = (nodes t).filter (fun x => x.1 = v)
    ∧ nodes (split t v).2.2 = (nodes t).filter (fun x => v < x.1) := by
  induction t with
  | nil => exact ⟨rfl, rfl, rfl⟩
  | node l v0 p s r ihl ihr =>
    obtain ⟨hvl, hvr, hl, hr⟩ := isBST_node_iff.1 h
    have Hl : ∀ x ∈ nodes l, x.1 < v0 := fun x hx => by
      have := (allVals_iff _ _).1 hvl x hx; simpa using this
    have Hr : ∀ x ∈ nodes r, v0 < x.1 := fun x hx => by
      have := (allVals_iff _ _).1 hvr x hx; simpa using this
    have hnodes : nodes (node l v0 p s r) = nodes l ++ (v0, p) :: nodes r := rfl
    rcases lt_trichotomy v0 v with h1 | h1 | h1
    · obtain ⟨ih1, ih2, ih3⟩ := ihr hr
      rw [split_node_lt h1]
      have el : (nodes l).filter (fun x => x.1 < v) = nodes l :=
        List.filter_eq_self.2 fun a ha => by
          have := Hl a ha; simp; omega
      have el2 : (nodes l).filter (fun x => x.1 = v) = [] :=
        List.filter_eq_nil_iff.2 fun a ha => by
          have := Hl a ha; simp; omega
      have el3 : (nodes l).filter (fun x => v < x.1) = [] :=
        List.filter_eq_nil_iff.2 fun a ha => by
          have := Hl a ha; simp; omega
      refine ⟨?_, ?_, ?_⟩
      · show nodes (recalc (node l v0 p s (split r v).1)) = _
        rw [nodes_recalc, show nodes (node l v0 p s (split r v).1)
            = nodes l ++ (v0, p) :: nodes (split r v).1 from rfl,
          hnodes, List.filter_append, el, ih1, List.filter_cons, if_pos (by simp [h1])]
      · show nodes (split r v).2.1 = _
        rw [hnodes, List.filter_append, el2, List.filter_cons,
          if_neg (by simp; omega), ih2]
        rfl
      · show nodes (split r v).2.2 = _
        rw [hnodes, List.filter_append, el3, List.filter_cons,
          if_neg (by simp; omega), ih3]
        rfl
    · subst h1
      rw [split_node_self]
      have el : (nodes l).filter (fun x => x.1 < v0) = nodes l :=
        List.filter_eq_self.2 fun a ha => by
          have := Hl a ha; simp; omega
      have el2 : (nodes l).filter (fun x => x.1 = v0) = [] :=
        List.filter_eq_nil_iff.2 fun a ha => by
          have := Hl a ha; simp; omega
      have el3 : (nodes l).filter (fun x => v0 < x.1) = [] :=
        List.filter_eq_nil_iff.2 fun a ha => by
          have := Hl a ha; simp; omega
      have er : (nodes r).filter (fun x => x.1 < v0) = [] :=
        List.filter_eq_nil_iff.2 fun a ha => by
          have := Hr a ha; simp; omega
      have er2 : (nodes r).filter (fun x => x.1 = v0) = [] :=
        List.filter_eq_nil_iff.2 fun a ha => by
          have := Hr a ha; simp; omega
      have er3 : (nodes r).filter (fun x => v0 < x.1) = nodes r :=
        List.filter_eq_self.2 fun a ha => by
          have := Hr a ha; simp; omega
      refine ⟨?_, ?_, ?_⟩
      · show nodes l = _
        rw [hnodes, List.filter_append, el, List.filter_cons,
          if_neg (by simp), er, List.append_nil]
      · show nodes (recalc (node nil v0 p s nil)) = _
        rw [hnodes, List.filter_append, el2, List.filter_cons, if_pos (by simp), er2]
        rfl
      · show nodes r = _
        rw [hnodes, List.filter_append, el3, List.filter_cons,
          if_neg (by simp), er3, List.nil_append]
    · obtain ⟨ih1, ih2, ih3⟩ := ihl hl
      rw [split_node_gt h1]
      have er : (nodes r).filter (fun x => x.1 < v) = [] :=
        List.filter_eq_nil_iff.2 fun a ha => by
          have := Hr a ha; simp; omega
      have er2 : (nodes r).filter (fun x => x.1 = v) = [] :=
        List.filter_eq_nil_iff.2 fun a ha => by
          have := Hr a ha; simp; omega
      have er3 : (nodes r).filter (fun x => v < x.1) = nodes r :=
        List.filter_eq_self.2 fun a ha => by
          have := Hr a ha; simp; omega
      refine ⟨?_, ?_, ?_⟩
      · show nodes (split l v).1 = _
        rw [hnodes, List.filter_append, ih1, List.filter_cons,
          if_neg (by simp; omega), er, List.append_nil]
      · show nodes (split l v).2.1 = _
        rw [hnodes, List.filter_append, ih2, List.filter_cons,
          if_neg (by simp; omega), er2, List.append_nil]
      · show nodes (recalc (node (split l v).2.2 v0 p s r)) = _
        rw [nodes_recalc, show nodes (node (split l v).2.2 v0 p s r)
            = nodes (split l v).2.2 ++ (v0, p) :: nodes r from rfl,
          hnodes, List.filter_append, ih3, List.filter_cons, if_pos (by simp [h1]), er3]

/-- The operation `split` keeps all three invariants in each of the three parts. -/
theorem split_inv {t : Tree} (v : Int) (h : inv t = true) :
    inv (split t v).1 = true ∧ inv (split t v).2.1 = true
      ∧ inv (split t v).2.2 = true := by
  induction t with
  | nil => exact ⟨rfl, rfl, rfl⟩
  | node l v0 p s r ihl ihr =>
    obtain ⟨hb, hh, hs⟩ := inv_iff.1 h
    obtain ⟨hvl, hvr, hbl, hbr⟩ := isBST_node_iff.1 hb
    obtain ⟨hpl, hpr, hhl, hhr⟩ := heapOk_node_iff.1 hh
    obtain ⟨hss, hsl, hsr⟩ := sizeOk_node_iff.1 hs
    have Hl : ∀ x ∈ nodes l, x.1 < v0 := fun x hx => by
      have := (allVals_iff _ _).1 hvl x hx; simpa using this
    have Hr : ∀ x ∈ nodes r, v0 < x.1 := fun x hx => by
      have := (allVals_iff _ _).1 hvr x hx; simpa using this
    rcases lt_trichotomy v0 v with h1 | h1 | h1
    · have ihr' := ihr (inv_iff.2 ⟨hbr, hhr, hsr⟩)
      obtain ⟨iha, ihc, ihb⟩ := ihr'
      obtain ⟨ba, _, _⟩ := inv_iff.1 iha
      have hmem : ∀ x ∈ nodes (split r v).1, x ∈ nodes r := fun x hx => by
        rw [(split_nodes v hbr).1] at hx
        exact (List.mem_filter.1 hx).1
      rw [split_node_lt h1]
      refine ⟨?_, ihc, ihb⟩
      show inv (node l v0 p (sizeof l + 1 + sizeof (split r v).1) (split r v).1) = true
      refine inv_iff.2 ⟨isBST_node_iff.2 ⟨hvl, ?_, hbl, ba⟩,
        heapOk_node_iff.2 ⟨hpl, ?_, hhl, (inv_iff.1 iha).2.1⟩,
        sizeOk_node_iff.2 ⟨rfl, hsl, (inv_iff.1 iha).2.2⟩⟩
      · exact (allVals_iff _ _).2 fun x hx => by
          have := Hr x (hmem x hx); simpa using this
      · refine allPrio_prioLe ((allPrio_iff _ _).2 fun x hx => ?_)
        have hall := heap_allPrio hhr p (by simpa [prioLe] using hpr)
        exact (allPrio_iff _ _).1 hall x (hmem x hx)
    · subst h1
      rw [split_node_self]
      refine ⟨inv_iff.2 ⟨hbl, hhl, hsl⟩, ?_, inv_iff.2 ⟨hbr, hhr, hsr⟩⟩
      rfl
    · have ihl' := ihl (inv_iff.2 ⟨hbl, hhl, hsl⟩)
      obtain ⟨iha, ihc, ihb⟩ := ihl'
      obtain ⟨bb, _, _⟩ := inv_iff.1 ihb
      have hmem : ∀ x ∈ nodes (split l v).2.2, x ∈ nodes l := fun x hx => by
        rw [(split_nodes v hbl).2.2] at hx
        exact (List.mem_filter.1 hx).1
      rw [split_node_gt h1]
      refine ⟨iha, ihc, ?_⟩
      show inv (node (split l v).2.2 v0 p (sizeof (split l v).2.2 + 1 + sizeof r) r) = true
      refine inv_iff.2 ⟨isBST_node_iff.2 ⟨?_, hvr, bb, hbr⟩,
        heapOk_node_iff.2 ⟨?_, hpr, (inv_iff.1 ihb).2.1, hhr⟩,
        sizeOk_node_iff.2 ⟨rfl, (inv_iff.1 ihb).2.2, hsr⟩⟩
      · exact (allVals_iff _ _).2 fun x hx => by
          have := Hl x (hmem x hx); simpa using this
      · refine allPrio_prioLe ((allPrio_iff _ _).2 fun x hx => ?_)
        have hall := heap_allPrio hhl p (by simpa [prioLe] using hpl)
        exact (allPrio_iff _ _).1 hall x (hmem x hx)

/-! ### Merge lemmas -/

theorem merge_nil_left (t : Tree) : merge nil t = t := by rw [merge]

theorem merge_nil_right (t : Tree) : merge t nil = t := by cases t <;> rw [merge]

/-- The in-order node sequence of a pairwise `merge` is the concatenation of
the inputs' sequences (no invariants needed). -/
theorem nodes_merge (a b : Tree) : nodes (merge a b) = nodes a ++ nodes b := by
  induction a, b using merge.induct with
  | case1 t => rw [merge_nil_left]; rfl
  | case2 ll lv lp ls lr => rw [merge_nil_right]; simp [nodes]
  | case3 ll lv lp ls lr rl rv rp rs rr h ih =>
    rw [merge, if_pos h, nodes_recalc]
    show nodes ll ++ (lv, lp) :: nodes (merge lr (node rl rv rp rs rr)) = _
    rw [ih]
    simp [nodes]
  | case4 ll lv lp ls lr rl rv rp rs rr h ih =>
    rw [merge, if_neg h, nodes_recalc]
    show nodes (merge (node ll lv lp ls lr) rl) ++ (rv, rp) :: nodes rr = _
    rw [ih]
    simp [nodes]

theorem toList_merge (a b : Tree) : toList (merge a b) = toList a ++ toList b := by
  rw [toList_eq_map, toList_eq_map, toList_eq_map, nodes_merge, List.map_append]

theorem merge_prioLe {a b : Tree} {bound : Nat} (ha : prioLe a bound = true)
    (hb : prioLe b bound = true) : prioLe (merge a b) bound = true := by
  cases a with
  | nil => rw [merge_nil_left]; exact hb
  | node ll lv lp ls lr =>
    cases b with
    | nil => rw [merge_nil_right]; exact ha
    | node rl rv rp rs rr =>
      by_cases h : lp > rp
      · rw [merge, if_pos h]; exact ha
      · rw [merge, if_neg h]; exact hb

/-- A pairwise `merge` of invariant-satisfying trees whose value ranges are
in strict ascending order satisfies all three invariants. -/
theorem merge_inv (a b : Tree) :
    (∀ x ∈ nodes a, ∀ y ∈ nodes b, x.1 < y.1) → inv a = true → inv b = true →
      inv (merge a b) = true := by
  induction a, b using merge.induct with
  | case1 t =>
    intro _ _ hb
    rw [merge_nil_left]; exact hb
  | case2 ll lv lp ls lr =>
    intro _ ha _
    rw [merge_nil_right]; exact ha
  | case3 ll lv lp ls lr rl rv rp rs rr h ih =>
    intro hord ha hb
    obtain ⟨hba, hha, hsa⟩ := inv_iff.1 ha
    obtain ⟨hvl, hvr, hbl, hbr⟩ := isBST_node_iff.1 hba
    obtain ⟨hpl, hpr, hhl, hhr⟩ := heapOk_node_iff.1 hha
    obtain ⟨hss, hsl, hsr⟩ := sizeOk_node_iff.1 hsa
    have hord' : ∀ x ∈ nodes lr, ∀ y ∈ nodes (node rl rv rp rs rr), x.1 < y.1 :=
      fun x hx y hy => hord x (mem_nodes_node.2 (Or.inr (Or.inr hx))) y hy
    have ihm := ih hord' (inv_iff.2 ⟨hbr, hhr, hsr⟩) hb
    rw [merge, if_pos h]
    show inv (node ll lv lp (sizeof ll + 1 + sizeof (merge lr (node rl rv rp rs rr)))
      (merge lr (node rl rv rp rs rr))) = true
    refine inv_iff.2 ⟨isBST_node_iff.2 ⟨hvl, ?_, hbl, (inv_iff.1 ihm).1⟩,
      heapOk_node_iff.2 ⟨hpl, ?_, hhl, (inv_iff.1 ihm).2.1⟩,
      sizeOk_node_iff.2 ⟨rfl, hsl, (inv_iff.1 ihm).2.2⟩⟩
    · refine (allVals_iff _ _).2 fun x hx => ?_
      rw [nodes_merge] at hx
      rcases List.mem_append.1 hx with hx | hx
      · simpa using (allVals_iff _ _).1 hvr x hx
      · have := hord (lv, lp) (mem_nodes_node.2 (Or.inr (Or.inl rfl))) x hx
        simpa using this
    · exact merge_prioLe hpr (by simp [prioLe]; omega)
  | case4 ll lv lp ls lr rl rv rp rs rr h ih =>
    intro hord ha hb
    obtain ⟨hbb, hhb, hsb⟩ := inv_iff.1 hb
    obtain ⟨hvl, hvr, hbl, hbr⟩ := isBST_node_iff.1 hbb
    obtain ⟨hpl, hpr, hhl, hhr⟩ := heapOk_node_iff.1 hhb
    obtain ⟨hss, hsl, hsr⟩ := sizeOk_node_iff.1 hsb
    have hord' : ∀ x ∈ nodes (node ll lv lp ls lr), ∀ y ∈ nodes rl, x.1 < y.1 :=
      fun x hx y hy => hord x hx y (mem_nodes_node.2 (Or.inl hy))
    have ihm := ih hord' ha (inv_iff.2 ⟨hbl, hhl, hsl⟩)
    rw [merge, if_neg h]
    show inv (node (merge (node ll lv lp ls lr) rl) rv rp
      (sizeof (merge (node ll lv lp ls lr) rl) + 1 + sizeof rr) rr) = true
    refine inv_iff.2 ⟨isBST_node_iff.2 ⟨?_, hvr, (inv_iff.1 ihm).1, hbr⟩,
      heapOk_node_iff.2 ⟨?_, hpr, (inv_iff.1 ihm).2.1, hhr⟩,
      sizeOk_node_iff.2 ⟨rfl, (inv_iff.1 ihm).2.2, hsr⟩⟩
    · refine (allVals_iff _ _).2 fun x hx => ?_
      rw [nodes_merge] at hx
      rcases List.mem_append.1 hx with hx | hx
      · have := hord x hx (rv, rp) (mem_nodes_node.2 (Or.inr (Or.inl rfl)))
        simpa using this
      · simpa using (allVals_iff _ _).1 hvl x hx
    · refine merge_prioLe ?_ hpl
      show prioLe (node ll lv lp ls lr) rp = true
      simp [prioLe]; omega

theorem merge3_eq (a b c : Tree) : merge3 a b c = merge (merge a b) c := rfl

theorem nodes_eq_nil {t : Tree} : nodes t = [] ↔ t = nil := by
  cases t with
  | nil => simp [nodes]
  | node l v p s r => simp [nodes]

/-! ### Split-then-merge restoration -/

theorem split_parts_ord {t : Tree} (v : Int) (h : isBST t = true) :
    (∀ x ∈ nodes (split t v).1, x.1 < v)
    ∧ (∀ x ∈ nodes (split t v).2.1, x.1 = v)
    ∧ (∀ x ∈ nodes (split t v).2.2, v < x.1) := by
  obtain ⟨e1, e2, e3⟩ := split_nodes v h
  refine ⟨fun x hx => ?_, fun x hx => ?_, fun x hx => ?_⟩
  · rw [e1] at hx; simpa using (List.mem_filter.1 hx).2
  · rw [e2] at hx; simpa using (List.mem_filter.1 hx).2
  · rw [e3] at hx; simpa using (List.mem_filter.1 hx).2

theorem split_nodes_append {t : Tree} (v : Int) (h : isBST t = true) :
    nodes (split t v).1 ++ nodes (split t v).2.1 ++ nodes (split t v).2.2 = nodes t := by
  obtain ⟨e1, e2, e3⟩ := split_nodes v h
  rw [e1, e2, e3]
  exact sorted_filter_decompose Prod.fst v (nodes t) (isBST_pairwise h)

/-- Merging the three parts of a `split` back together restores the original
node sequence exactly. -/
theorem restore_nodes {t : Tree} (v : Int) (h : isBST t = true) :
    nodes (merge3 (split t v).1 (split t v).2.1 (split t v).2.2) = nodes t := by
  rw [merge3_eq, nodes_merge, nodes_merge]
  exact split_nodes_append v h

/-- Merging the three parts of a `split` back together preserves the
invariants. -/
theorem merge3_split_inv {root : Tree} (v : Int) (h : inv root = true) :
    inv (merge3 (split root v).1 (split root v).2.1 (split root v).2.2) = true := by
  obtain ⟨i1, i2, i3⟩ := split_inv v h
  obtain ⟨o1, o2, o3⟩ := split_parts_ord v (inv_iff.1 h).1
  rw [merge3_eq]
  refine merge_inv _ _ ?_ (merge_inv _ _ ?_ i1 i2) i3
  · intro x hx y hy
    rw [nodes_merge] at hx
    rcases List.mem_append.1 hx with hx | hx
    · exact lt_trans (o1 x hx) (o3 y hy)
    · rw [o2 x hx] at *; exact o3 y hy
  · intro x hx y hy
    rw [o2 y hy]; exact o1 x hx

/-! ### The membership test -/

theorem contains_def (root : Tree) (v : Int) :
    contains root v = (decide ¬((split root v).2.1 = nil),
      merge3 (split root v).1 (split root v).2.1 (split root v).2.2) := rfl

theorem mem_toList_iff_center {root : Tree} (v : Int) (h : isBST root = true) :
    v ∈ toList root ↔ (split root v).2.1 ≠ nil := by
  obtain ⟨_, e2, _⟩ := split_nodes v h
  rw [toList_eq_map, List.mem_map]
  constructor
  · rintro ⟨x, hx, rfl⟩ hc
    rw [hc] at e2
    have : x ∈ (nodes root).filter (fun y => y.1 = x.1) :=
      List.mem_filter.2 ⟨hx, by simp⟩
    rw [← e2] at this
    cases this
  · intro hc
    have : nodes (split root v).2.1 ≠ [] := fun hn => hc (nodes_eq_nil.1 hn)
    rcases List.exists_mem_of_ne_nil _ this with ⟨x, hx⟩
    have hx' : x ∈ (nodes root).filter (fun y => y.1 = v) := by rw [← e2]; exact hx
    obtain ⟨hmem, hval⟩ := List.mem_filter.1 hx'
    exact ⟨x, hmem, by simpa using hval⟩

/-- Full specification of `__contains__`: the Boolean answer is membership in
the in-order value list, and the rebuilt root has the same node content and
satisfies the invariants. -/
theorem contains_spec {root : Tree} (v : Int) (h : inv root = true) :
    ((contains root v).1 = true ↔ v ∈ toList root)
    ∧ nodes (contains root v).2 = nodes root
    ∧ inv (contains root v).2 = true := by
  rw [contains_def]
  refine ⟨?_, restore_nodes v (inv_iff.1 h).1, merge3_split_inv v h⟩
  rw [mem_toList_iff_center v (inv_iff.1 h).1]
  simp

theorem contains_toList {root : Tree} (v : Int) (h : inv root = true) :
    toList (contains root v).2 = toList root := by
  rw [toList_eq_map, toList_eq_map, (contains_spec v h).2.1]

theorem toList_pairwise {t : Tree} (h : isBST t = true) :
    (toList t).Pairwise (· < ·) := by
  rw [toList_eq_map, List.pairwise_map]
  exact isBST_pairwise h

theorem toList_nodup {t : Tree} (h : isBST t = true) : (toList t).Nodup :=
  (toList_pairwise h).imp ne_of_lt

theorem map_fst_filter (p : Int → Bool) (l : List (Int × Nat)) :
    (l.filter (fun x => p x.1)).map Prod.fst = (l.map Prod.fst).filter p := by
  induction l with
  | nil => rfl
  | cons a l ih => by_cases h : p a.1 <;> simp [List.filter_cons, h, ih]

theorem filter_eq_singleton {xs : List Int} (v : Int) (hnd : xs.Nodup) (hv : v ∈ xs) :
    xs.filter (fun x => x = v) = [v] := by
  induction xs with
  | nil => cases hv
  | cons x xs ih =>
    rw [List.nodup_cons] at hnd
    rcases List.mem_cons.1 hv with rfl | hv
    · rw [List.filter_cons, if_pos (by simp)]
      rw [List.filter_eq_nil_iff.2 fun a ha => ?_]
      intro he
      simp at he
      subst he
      exact hnd.1 ha
    · rw [List.filter_cons, if_neg ?_, ih hnd.2 hv]
      simp
      rintro rfl
      exact hnd.1 hv

/-- The sorted decomposition of the in-order value list of a search tree. -/
theorem toList_decompose {t : Tree} (v : Int) (h : isBST t = true) :
    (toList t).filter (fun x => x < v) ++ (toList t).filter (fun x => x = v)
      ++ (toList t).filter (fun x => v < x) = toList t :=
  sorted_filter_decompose (fun x => x) v (toList t)
    (by simpa using toList_pairwise h)

theorem toList_split {t : Tree} (v : Int) (h : isBST t = true) :
    toList (split t v).1 = (toList t).filter (fun x => x < v)
    ∧ toList (split t v).2.1 = (toList t).filter (fun x => x = v)
    ∧ toList (split t v).2.2 = (toList t).filter (fun x => v < x) := by
  obtain ⟨e1, e2, e3⟩ := split_nodes v h
  refine ⟨?_, ?_, ?_⟩
  · rw [toList_eq_map, e1, toList_eq_map]
    exact map_fst_filter (fun a => a < v) (nodes t)
  · rw [toList_eq_map, e2, toList_eq_map]
    exact map_fst_filter (fun a => a = v) (nodes t)
  · rw [toList_eq_map, e3, toList_eq_map]
    exact map_fst_filter (fun a => v < a) (nodes t)

/-! ### Insertion -/

theorem add_def (root : Tree) (v : Int) (p : Nat) :
    add root v p = if (contains root v).1 then (contains root v).2
      else merge3 (split (contains root v).2 v).1 (node nil v p 1 nil)
        (split (contains root v).2 v).2.2 := rfl

/-- Full specification of `add`: the resulting value list places `v` between
the values below and above it (so it is unchanged when `v` was present), and
the invariants are preserved — for any priority the generator hands out. -/
theorem add_spec {root : Tree} (v : Int) (p : Nat) (h : inv root = true) :
    toList (add root v p)
      = (toList root).filter (fun x => x < v) ++ v :: (toList root).filter (fun x => v < x)
    ∧ inv (add root v p) = true := by
  obtain ⟨hmem, hnodes, hinv⟩ := contains_spec v h
  have htl : toList (contains root v).2 = toList root := contains_toList v h
  rw [add_def]
  by_cases hc : (contains root v).1 = true
  · rw [if_pos hc]
    have hv : v ∈ toList root := hmem.1 hc
    refine ⟨?_, hinv⟩
    rw [htl]
    conv_lhs => rw [← toList_decompose v (inv_iff.1 h).1]
    rw [filter_eq_singleton v (toList_nodup (inv_iff.1 h).1) hv]
    simp
  · rw [if_neg hc]
    have hv : v ∉ toList root := fun hv => hc (hmem.2 hv)
    set root' := (contains root v).2 with hroot'
    obtain ⟨i1, i2, i3⟩ := split_inv v hinv
    obtain ⟨o1, o2, o3⟩ := split_parts_ord v (inv_iff.1 hinv).1
    obtain ⟨t1, t2, t3⟩ := toList_split v (inv_iff.1 hinv).1
    have hsingle : inv (node nil v p 1 nil) = true := rfl
    constructor
    · rw [merge3_eq, toList_merge, toList_merge, t1, t3, htl]
      show _ ++ (v :: toList nil) ++ _ = _
      simp [toList]
    · rw [merge3_eq]
      refine merge_inv _ _ ?_ (merge_inv _ _ ?_ i1 hsingle) i3
      · intro x hx y hy
        rw [nodes_merge] at hx
        rcases List.mem_append.1 hx with hx | hx
        · exact lt_trans (o1 x hx) (o3 y hy)
        · have : x = (v, p) := by simpa [nodes] using hx
          rw [this]; exact o3 y hy
      · intro x hx y hy
        have : y = (v, p) := by simpa [nodes] using hy
        rw [this]; exact o1 x hx

/-! ### Removal -/

theorem remove_def (root : Tree) (v : Int) :
    remove root v = if ¬((contains root v).1 = true) then .error (contains root v).2
      else .ok (merge (split (contains root v).2 v).1
        (split (contains root v).2 v).2.2) := rfl

theorem filter_ne_decompose {t : Tree} (v : Int) (h : isBST t = true) :
    (toList t).filter (fun x => ¬ x = v)
      = (toList t).filter (fun x => x < v) ++ (toList t).filter (fun x => v < x) := by
  conv_lhs => rw [← toList_decompose v h]
  rw [List.filter_append, List.filter_append]
  have e1 : ((toList t).filter (fun x => x < v)).filter (fun x => ¬ x = v)
      = (toList t).filter (fun x => x < v) :=
    List.filter_eq_self.2 fun a ha => by
      have := (List.mem_filter.1 ha).2; simp at this ⊢; omega
  have e2 : ((toList t).filter (fun x => x = v)).filter (fun x => ¬ x = v) = [] :=
    List.filter_eq_nil_iff.2 fun a ha => by
      have := (List.mem_filter.1 ha).2; simp at this ⊢; omega
  have e3 : ((toList t).filter (fun x => v < x)).filter (fun x => ¬ x = v)
      = (toList t).filter (fun x => v < x) :=
    List.filter_eq_self.2 fun a ha => by
      have := (List.mem_filter.1 ha).2; simp at this ⊢; omega
  rw [e1, e2, e3, List.append_nil]

/-- Full specification of `remove`: it succeeds exactly on present values;
on success the value list loses exactly `v` and the invariants hold; on
failure the (rebuilt) root keeps the same value list and the invariants. -/
theorem remove_spec {root : Tree} (v : Int) (h : inv root = true) :
    ((∃ t', remove root v = .ok t') ↔ v ∈ toList root)
    ∧ (∀ t', remove root v = .ok t' →
        toList t' = (toList root).filter (fun x => ¬ x = v) ∧ inv t' = true)
    ∧ (∀ t', remove root v = .error t' →
        toList t' = toList root ∧ inv t' = true) := by
  obtain ⟨hmem, hnodes, hinv⟩ := contains_spec v h
  have htl : toList (contains root v).2 = toList root := contains_toList v h
  obtain ⟨i1, i2, i3⟩ := split_inv v hinv
  obtain ⟨o1, o2, o3⟩ := split_parts_ord v (inv_iff.1 hinv).1
  obtain ⟨t1, t2, t3⟩ := toList_split v (inv_iff.1 hinv).1
  rw [remove_def]
  by_cases hc : (contains root v).1 = true
  · rw [if_neg (by simpa using hc)]
    refine ⟨⟨fun _ => hmem.1 hc, fun _ => ⟨_, rfl⟩⟩, fun t' ht' => ?_, fun t' ht' => ?_⟩
    · injection ht' with ht'
      subst ht'
      refine ⟨?_, merge_inv _ _ (fun x hx y hy => lt_trans (o1 x hx) (o3 y hy)) i1 i3⟩
      rw [toList_merge, t1, t3, htl, filter_ne_decompose v (inv_iff.1 h).1]
    · cases ht'
  · rw [if_pos (by simpa using hc)]
    have hv : v ∉ toList root := fun hv => hc (hmem.2 hv)
    refine ⟨?_, fun t' ht' => ?_, fun t' ht' => ?_⟩
    · constructor
      · rintro ⟨t', ht'⟩
        cases ht'
      · intro hvv
        exact absurd hvv hv
    · cases ht'
    · injection ht' with ht'
      subst ht'
      exact ⟨htl, hinv⟩

/-- Full specification of `discard`: the value list loses `v` (a no-op when
`v` is absent) and the invariants are preserved; no error escapes. -/
theorem discard_spec {root : Tree} (v : Int) (h : inv root = true) :
    toList (discard root v) = (toList root).filter (fun x => ¬ x = v)
    ∧ inv (discard root v) = true := by
  obtain ⟨hiff, hok, herr⟩ := remove_spec v h
  unfold discard
  cases hr : remove root v with
  | ok t' => exact hok t' hr
  | error t' =>
    obtain ⟨ht, hi⟩ := herr t' hr
    have hv : v ∉ toList root := fun hv => by
      obtain ⟨u, hu⟩ := hiff.2 hv
      rw [hu] at hr
      cases hr
    refine ⟨?_, hi⟩
    rw [ht]
    symm
    refine List.filter_eq_self.2 fun a ha => ?_
    simp
    rintro rfl
    exact hv ha

/-! ### Rank access -/

theorem toList_length {t : Tree} (hs : sizeOk t = true) :
    (toList t).length = sizeof t := by
  rw [toList_eq_map, List.length_map, ← sizeOk_sizeof hs]

theorem get_kth_node_eq {l r : Tree} {v : Int} {p s : Nat} {k : Int} (hk : ¬ k < 0) :
    get_kth_node (node l v p s r) k
      = if 0 ≤ k ∧ k < (s : Int) then
          if (sizeof l : Int) = k then .ok (node l v p s r)
          else if (sizeof l : Int) > k then get_kth_node l k
          else get_kth_node r (k - (sizeof l : Int) - 1)
        else .error .outOfRange := by
  simp only [get_kth_node]
  rw [if_neg hk]

theorem get_kth_node_neg {l r : Tree} {v : Int} {p s : Nat} {k : Int} (hk : k < 0) :
    get_kth_node (node l v p s r) k
      = if 0 ≤ (s : Int) + k ∧ (s : Int) + k < (s : Int) then
          if (sizeof l : Int) = (s : Int) + k then .ok (node l v p s r)
          else if (sizeof l : Int) > (s : Int) + k then get_kth_node l ((s : Int) + k)
          else get_kth_node r ((s : Int) + k - (sizeof l : Int) - 1)
        else .error .outOfRange := by
  simp only [get_kth_node]
  rw [if_pos hk]

theorem get_kth_ok {t : Tree} (hs : sizeOk t = true) :
    ∀ k : Int, 0 ≤ k → k < (sizeof t : Int) →
      ∃ nd, get_kth_node t k = .ok nd ∧ (toList t)[k.toNat]? = some (val nd) := by
  induction t with
  | nil =>
    intro k hk hk'
    simp [sizeof] at hk'
    omega
  | node l v p s r ihl ihr =>
    intro k hk hk'
    obtain ⟨hss, hsl, hsr⟩ := sizeOk_node_iff.1 hs
    have lenl : (toList l).length = sizeof l := toList_length hsl
    have lenr : (toList r).length = sizeof r := toList_length hsr
    have hsz : ((sizeof (node l v p s r) : Nat) : Int) = (s : Int) := rfl
    rw [hsz] at hk'
    rw [get_kth_node_eq (not_lt.2 hk), if_pos ⟨hk, hk'⟩]
    have htl : toList (node l v p s r) = toList l ++ v :: toList r := rfl
    rcases lt_trichotomy ((sizeof l : Nat) : Int) k with hcmp | hcmp | hcmp
    · rw [if_neg (by omega), if_neg (by omega)]
      have h0 : 0 ≤ k - (sizeof l : Int) - 1 := by omega
      have h1 : k - (sizeof l : Int) - 1 < (sizeof r : Int) := by omega
      obtain ⟨nd, hnd, hval⟩ := ihr hsr _ h0 h1
      refine ⟨nd, hnd, ?_⟩
      rw [htl, List.getElem?_append_right (by omega)]
      have he : k.toNat - (toList l).length = ((k - (sizeof l : Int) - 1).toNat) + 1 := by omega
      rw [he, List.getElem?_cons_succ]
      exact hval
    · rw [if_pos (by omega)]
      refine ⟨node l v p s r, rfl, ?_⟩
      rw [htl, List.getElem?_append_right (by omega)]
      have he : k.toNat - (toList l).length = 0 := by omega
      rw [he, List.getElem?_cons_zero]
      rfl
    · rw [if_neg (by omega), if_pos (by omega)]
      obtain ⟨nd, hnd, hval⟩ := ihl hsl _ hk (by omega)
      refine ⟨nd, hnd, ?_⟩
      rw [htl, List.getElem?_append_left (by omega)]
      exact hval

theorem get_kth_norm {l r : Tree} {v : Int} {p s : Nat} {k0 : Int} (hneg : k0 < 0)
    (hnn : 0 ≤ (s : Int) + k0) :
    get_kth_node (node l v p s r) k0 = get_kth_node (node l v p s r) ((s : Int) + k0) := by
  rw [get_kth_node_neg hneg, get_kth_node_eq (not_lt.2 hnn)]

theorem get_kth_oob {l r : Tree} {v : Int} {p s : Nat} {k0 : Int}
    (h : ¬(0 ≤ (if k0 < 0 then (s : Int) + k0 else k0)
      ∧ (if k0 < 0 then (s : Int) + k0 else k0) < (s : Int))) :
    get_kth_node (node l v p s r) k0 = .error .outOfRange := by
  by_cases hneg : k0 < 0
  · rw [get_kth_node_neg hneg, if_neg (by rw [if_pos hneg] at h; exact h)]
  · rw [get_kth_node_eq hneg, if_neg (by rw [if_neg hneg] at h; exact h)]

theorem getItem_eq_listIndex {root : Tree} (k : Int) (h : inv root = true) :
    getItem root k = listIndex (toList root) k := by
  obtain ⟨hb, hh, hs⟩ := inv_iff.1 h
  cases root with
  | nil =>
    show Except.error Err.outOfRange = listIndex [] k
    rw [listIndex]
    simp only [List.length_nil, Nat.cast_zero, zero_add]
    rw [if_neg (by omega)]
  | node l v p s r =>
    have hlen : (toList (node l v p s r)).length = s := toList_length hs
    have hsz : sizeof (node l v p s r) = s := rfl
    show (get_kth_node (node l v p s r) k).map val = _
    rw [listIndex]
    simp only [hlen]
    by_cases hneg : k < 0
    · rw [if_pos hneg] at *
      by_cases hrange : 0 ≤ (s : Int) + k ∧ (s : Int) + k < (s : Int)
      · rw [if_pos hrange]
        obtain ⟨nd, hnd, hval⟩ := get_kth_ok hs ((s : Int) + k) hrange.1 (by omega)
        rw [get_kth_norm hneg hrange.1, hnd]
        show Except.ok (val nd) = _
        rw [List.getD_eq_getElem?_getD, hval]
        rfl
      · rw [if_neg hrange, get_kth_oob (by rw [if_pos hneg]; exact hrange)]
        rfl
    · rw [if_neg hneg] at *
      by_cases hrange : 0 ≤ k ∧ k < (s : Int)
      · rw [if_pos hrange]
        obtain ⟨nd, hnd, hval⟩ := get_kth_ok hs k hrange.1 (by omega)
        rw [hnd]
        show Except.ok (val nd) = _
        rw [List.getD_eq_getElem?_getD, hval]
        rfl
      · rw [if_neg hrange, get_kth_oob (by rw [if_neg hneg]; exact hrange)]
        rfl

theorem get_kth_total {t : Tree} (hs : sizeOk t = true) (ht : t ≠ nil) (k0 : Int) :
    (∃ nd, get_kth_node t k0 = .ok nd) ∨ get_kth_node t k0 = .error .outOfRange := by
  cases t with
  | nil => exact absurd rfl ht
  | node l v p s r =>
    by_cases hneg : k0 < 0
    · by_cases hrange : 0 ≤ (s : Int) + k0 ∧ (s : Int) + k0 < (s : Int)
      · obtain ⟨nd, hnd, _⟩ := get_kth_ok hs ((s : Int) + k0) hrange.1 hrange.2
        exact Or.inl ⟨nd, by rw [get_kth_norm hneg hrange.1]; exact hnd⟩
      · exact Or.inr (get_kth_oob (by rw [if_pos hneg]; exact hrange))
    · by_cases hrange : 0 ≤ k0 ∧ k0 < (s : Int)
      · obtain ⟨nd, hnd, _⟩ := get_kth_ok hs k0 hrange.1 hrange.2
        exact Or.inl ⟨nd, hnd⟩
      · exact Or.inr (get_kth_oob (by rw [if_neg hneg]; exact hrange))

theorem sorted_head_min {xs : List Int} (hs : xs.Pairwise (· < ·)) {w : Int}
    (hw : xs[0]? = some w) : ∀ u ∈ xs, w ≤ u := by
  intro u hu
  obtain ⟨i, hi, rfl⟩ := List.mem_iff_getElem.1 hu
  obtain ⟨h0, hw'⟩ := List.getElem?_eq_some.1 hw
  rcases Nat.eq_zero_or_pos i with rfl | hpos
  · rw [hw']
  · rw [← hw']
    exact le_of_lt ((List.pairwise_iff_getElem.1 hs) 0 i h0 hi hpos)

theorem sorted_last_max {xs : List Int} (hs : xs.Pairwise (· < ·)) {w : Int}
    (hw : xs[xs.length - 1]? = some w) : ∀ u ∈ xs, u ≤ w := by
  intro u hu
  obtain ⟨i, hi, rfl⟩ := List.mem_iff_getElem.1 hu
  obtain ⟨h0, hw'⟩ := List.getElem?_eq_some.1 hw
  rcases Nat.lt_or_ge i (xs.length - 1) with hlt | hge
  · rw [← hw']
    exact le_of_lt ((List.pairwise_iff_getElem.1 hs) i (xs.length - 1) hi h0 hlt)
  · have : i = xs.length - 1 := by omega
    subst this
    rw [hw']

theorem nextVal_def (root : Tree) (v : Int) :
    nextVal root v = (if sizeof (split root v).2.2 = 0 then .error .noSuchElement
      else (get_kth_node (split root v).2.2 0).map val,
      merge3 (split root v).1 (split root v).2.1 (split root v).2.2) := rfl

/-- Full specification of `next`: on success the result is the least present
value strictly above `v`; the `no such element` failure happens exactly when
no present value exceeds `v`; and in both cases the rebuilt root carries the
same value list and satisfies the invariants. -/
theorem nextVal_spec {root : Tree} (v : Int) (h : inv root = true) :
    (∀ w, (nextVal root v).1 = .ok w ↔
      (w ∈ toList root ∧ v < w ∧ ∀ u ∈ toList root, v < u → w ≤ u))
    ∧ ((nextVal root v).1 = .error .noSuchElement ↔ ∀ u ∈ toList root, ¬ v < u)
    ∧ toList (nextVal root v).2 = toList root
    ∧ inv (nextVal root v).2 = true := by
  obtain ⟨hb, hh, hsz⟩ := inv_iff.1 h
  obtain ⟨i1, i2, i3⟩ := split_inv v h
  obtain ⟨t1, t2, t3⟩ := toList_split v hb
  have hrtl : toList (nextVal root v).2 = toList root := by
    rw [nextVal_def]
    show toList (merge3 _ _ _) = _
    rw [toList_eq_map, restore_nodes v hb, ← toList_eq_map]
  have hrinv : inv (nextVal root v).2 = true := by
    rw [nextVal_def]; exact merge3_split_inv v h
  have hlen : (toList (split root v).2.2).length = sizeof (split root v).2.2 :=
    toList_length (inv_iff.1 i3).2.2
  have hFsorted : (toList (split root v).2.2).Pairwise (· < ·) :=
    toList_pairwise (inv_iff.1 i3).1
  by_cases hz : sizeof (split root v).2.2 = 0
  · have hFnil : (toList root).filter (fun x => v < x) = [] := by
      rw [← t3]
      have : (toList (split root v).2.2).length = 0 := by rw [hlen, hz]
      exact List.length_eq_zero.1 this
    have hres : (nextVal root v).1 = .error .noSuchElement := by
      rw [nextVal_def]
      show (if sizeof (split root v).2.2 = 0 then _ else _) = _
      rw [if_pos hz]
    refine ⟨fun w => ?_, ?_, hrtl, hrinv⟩
    · rw [hres]
      constructor
      · intro hc; cases hc
      · rintro ⟨hw, hvw, _⟩
        have hmF : w ∈ (toList root).filter (fun x => v < x) :=
          List.mem_filter.2 ⟨hw, by simpa using hvw⟩
        rw [hFnil] at hmF; cases hmF
    · rw [hres]
      constructor
      · intro _ u hu hvu
        have hmF : u ∈ (toList root).filter (fun x => v < x) :=
          List.mem_filter.2 ⟨hu, by simpa using hvu⟩
        rw [hFnil] at hmF; cases hmF
      · intro _; rfl
  · obtain ⟨nd, hnd, hval⟩ := get_kth_ok (inv_iff.1 i3).2.2 0 le_rfl (by omega)
    have hres : (nextVal root v).1 = .ok (val nd) := by
      rw [nextVal_def]
      show (if sizeof (split root v).2.2 = 0 then _
        else (get_kth_node (split root v).2.2 0).map val) = _
      rw [if_neg hz, hnd]
      rfl
    have hw0 : (toList (split root v).2.2)[0]? = some (val nd) := by simpa using hval
    have hmem : val nd ∈ toList (split root v).2.2 := by
      have := List.getElem?_eq_some.1 hw0
      exact this.2 ▸ List.getElem_mem _
    have hmin : ∀ u ∈ toList (split root v).2.2, val nd ≤ u :=
      sorted_head_min hFsorted hw0
    have hmemF := List.mem_filter.1 (t3 ▸ hmem)
    refine ⟨fun w => ?_, ?_, hrtl, hrinv⟩
    · rw [hres]
      constructor
      · intro he
        injection he with he
        subst he
        refine ⟨hmemF.1, by simpa using hmemF.2, fun u hu hvu => ?_⟩
        exact hmin u (t3 ▸ List.mem_filter.2 ⟨hu, by simpa using hvu⟩)
      · rintro ⟨hw, hvw, hmin'⟩
        have hwF : w ∈ toList (split root v).2.2 :=
          t3 ▸ List.mem_filter.2 ⟨hw, by simpa using hvw⟩
        have h1 : val nd ≤ w := hmin w hwF
        have h2 : w ≤ val nd := hmin' (val nd) hmemF.1 (by simpa using hmemF.2)
        rw [le_antisymm h2 h1]
    · rw [hres]
      constructor
      · intro hc; cases hc
      · intro hall
        exact absurd (by simpa using hmemF.2) (hall _ hmemF.1)

theorem prevVal_def (root : Tree) (v : Int) :
    prevVal root v = (if sizeof (split root v).1 = 0 then .error .noSuchElement
      else (get_kth_node (split root v).1 (-1)).map val,
      merge3 (split root v).1 (split root v).2.1 (split root v).2.2) := rfl

/-- Full specification of `prev`: on success the result is the greatest
present value strictly below `v`; the `no such element` failure happens
exactly when no present value is below `v`; and in both cases the rebuilt
root carries the same value list and satisfies the invariants. -/
theorem prevVal_spec {root : Tree} (v : Int) (h : inv root = true) :
    (∀ w, (prevVal root v).1 = .ok w ↔
      (w ∈ toList root ∧ w < v ∧ ∀ u ∈ toList root, u < v → u ≤ w))
    ∧ ((prevVal root v).1 = .error .noSuchElement ↔ ∀ u ∈ toList root, ¬ u < v)
    ∧ toList (prevVal root v).2 = toList root
    ∧ inv (prevVal root v).2 = true := by
  obtain ⟨hb, hh, hsz⟩ := inv_iff.1 h
  obtain ⟨i1, i2, i3⟩ := split_inv v h
  obtain ⟨t1, t2, t3⟩ := toList_split v hb
  have hrtl : toList (prevVal root v).2 = toList root := by
    rw [prevVal_def]
    show toList (merge3 _ _ _) = _
    rw [toList_eq_map, restore_nodes v hb, ← toList_eq_map]
  have hrinv : inv (prevVal root v).2 = true := by
    rw [prevVal_def]; exact merge3_split_inv v h
  have hlen : (toList (split root v).1).length = sizeof (split root v).1 :=
    toList_length (inv_iff.1 i1).2.2
  have hFsorted : (toList (split root v).1).Pairwise (· < ·) :=
    toList_pairwise (inv_iff.1 i1).1
  by_cases hz : sizeof (split root v).1 = 0
  · have hFnil : (toList root).filter (fun x => x < v) = [] := by
      rw [← t1]
      have : (toList (split root v).1).length = 0 := by rw [hlen, hz]
      exact List.length_eq_zero.1 this
    have hres : (prevVal root v).1 = .error .noSuchElement := by
      rw [prevVal_def]
      show (if sizeof (split root v).1 = 0 then _ else _) = _
      rw [if_pos hz]
    refine ⟨fun w => ?_, ?_, hrtl, hrinv⟩
    · rw [hres]
      constructor
      · intro hc; cases hc
      · rintro ⟨hw, hvw, _⟩
        have hmF : w ∈ (toList root).filter (fun x => x < v) :=
          List.mem_filter.2 ⟨hw, by simpa using hvw⟩
        rw [hFnil] at hmF; cases hmF
    · rw [hres]
      constructor
      · intro _ u hu hvu
        have hmF : u ∈ (toList root).filter (fun x => x < v) :=
          List.mem_filter.2 ⟨hu, by simpa using hvu⟩
        rw [hFnil] at hmF; cases hmF
      · intro _; rfl
  · have hub : (0 : Int) ≤ (sizeof (split root v).1 : Int) + (-1) := by omega
    obtain ⟨nd, hnd, hval⟩ :=
      get_kth_ok (inv_iff.1 i1).2.2 ((sizeof (split root v).1 : Int) + (-1)) hub (by omega)
    have hcast : (split root v).1 ≠ nil := by
      intro hcon
      rw [hcon] at hz
      exact hz rfl
    have hnres : get_kth_node (split root v).1 (-1) = .ok nd := by
      cases hsp : (split root v).1 with
      | nil => exact absurd hsp hcast
      | node a b c d e =>
        rw [hsp] at hnd hub
        rw [get_kth_norm (by omega) (by exact hub)]
        exact hnd
    have hres : (prevVal root v).1 = .ok (val nd) := by
      rw [prevVal_def]
      show (if sizeof (split root v).1 = 0 then _
        else (get_kth_node (split root v).1 (-1)).map val) = _
      rw [if_neg hz, hnres]
      rfl
    have hidx : ((sizeof (split root v).1 : Int) + (-1)).toNat
        = (toList (split root v).1).length - 1 := by omega
    have hw0 : (toList (split root v).1)[(toList (split root v).1).length - 1]?
        = some (val nd) := by
      rw [← hidx]; exact hval
    have hmem : val nd ∈ toList (split root v).1 := by
      have := List.getElem?_eq_some.1 hw0
      exact this.2 ▸ List.getElem_mem _
    have hmax : ∀ u ∈ toList (split root v).1, u ≤ val nd :=
      sorted_last_max hFsorted hw0
    have hmemF := List.mem_filter.1 (t1 ▸ hmem)
    refine ⟨fun w => ?_, ?_, hrtl, hrinv⟩
    · rw [hres]
      constructor
      · intro he
        injection he with he
        subst he
        refine ⟨hmemF.1, by simpa using hmemF.2, fun u hu hvu => ?_⟩
        exact hmax u (t1 ▸ List.mem_filter.2 ⟨hu, by simpa using hvu⟩)
      · rintro ⟨hw, hvw, hmax'⟩
        have hwF : w ∈ toList (split root v).1 :=
          t1 ▸ List.mem_filter.2 ⟨hw, by simpa using hvw⟩
        have h1 : w ≤ val nd := hmax w hwF
        have h2 : val nd ≤ w := hmax' (val nd) hmemF.1 (by simpa using hmemF.2)
        rw [le_antisymm h2 h1]
    · rw [hres]
      constructor
      · intro hc; cases hc
      · intro hall
        exact absurd (by simpa using hmemF.2) (hall _ hmemF.1)

/-! ### Call histories -/

theorem add_mem {root : Tree} (v : Int) (p : Nat) (h : inv root = true) :
    ∀ x, x ∈ toList (add root v p) ↔ x = v ∨ x ∈ toList root := by
  intro x
  rw [(add_spec v p h).1]
  simp only [List.mem_append, List.mem_cons, List.mem_filter]
  constructor
  · rintro (⟨hx, _⟩ | rfl | ⟨hx, _⟩)
    · exact Or.inr hx
    · exact Or.inl rfl
    · exact Or.inr hx
  · rintro (rfl | hx)
    · exact Or.inr (Or.inl rfl)
    · rcases lt_trichotomy x v with h1 | h1 | h1
      · exact Or.inl ⟨hx, by simpa using h1⟩
      · exact Or.inr (Or.inl h1)
      · exact Or.inr (Or.inr ⟨hx, by simpa using h1⟩)

theorem applyOp_inv {t : Tree} (op : Op) (h : inv t = true) :
    inv (applyOp t op) = true := by
  cases op with
  | addOp v p => exact (add_spec v p h).2
  | removeOp v =>
    show inv (discard t v) = true
    exact (discard_spec v h).2
  | discardOp v => exact (discard_spec v h).2

theorem applyOp_mem {t : Tree} (h : inv t = true) (v : Int) : ∀ op : Op,
    (v ∈ toList (applyOp t op) ↔
      match op with
      | .addOp w _ => w = v ∨ v ∈ toList t
      | .removeOp w => ¬ w = v ∧ v ∈ toList t
      | .discardOp w => ¬ w = v ∧ v ∈ toList t)
  | .addOp w p => by
    show v ∈ toList (add t w p) ↔ _
    rw [add_mem w p h v]
    constructor
    · rintro (rfl | hv)
      · exact Or.inl rfl
      · exact Or.inr hv
    · rintro (rfl | hv)
      · exact Or.inl rfl
      · exact Or.inr hv
  | .removeOp w => by
    show v ∈ toList (discard t w) ↔ _
    rw [(discard_spec w h).1, List.mem_filter]
    constructor
    · rintro ⟨hm, hne⟩
      refine ⟨?_, hm⟩
      simp at hne
      omega
    · rintro ⟨hne, hm⟩
      refine ⟨hm, ?_⟩
      simp
      omega
  | .discardOp w => by
    show v ∈ toList (discard t w) ↔ _
    rw [(discard_spec w h).1, List.mem_filter]
    constructor
    · rintro ⟨hm, hne⟩
      refine ⟨?_, hm⟩
      simp at hne
      omega
    · rintro ⟨hne, hm⟩
      refine ⟨hm, ?_⟩
      simp
      omega

theorem runOps_aux (v : Int) :
    ∀ (ops : List Op) (t : Tree) (b : Bool), inv t = true → (b = true ↔ v ∈ toList t) →
      inv (ops.foldl applyOp t) = true
      ∧ (ops.foldl (presentStep v) b = true ↔ v ∈ toList (ops.foldl applyOp t)) := by
  intro ops
  induction ops with
  | nil => intro t b ht hb; exact ⟨ht, hb⟩
  | cons op ops ih =>
    intro t b ht hb
    refine ih (applyOp t op) (presentStep v b op) (applyOp_inv op ht) ?_
    rw [applyOp_mem ht v op]
    cases op with
    | addOp w p =>
      by_cases hw : w = v
      · simp [presentStep, hw]
      · simp [presentStep, hw, hb]
    | removeOp w =>
      by_cases hw : w = v
      · simp [presentStep, hw]
      · simp [presentStep, hw, hb]
    | discardOp w =>
      by_cases hw : w = v
      · simp [presentStep, hw]
      · simp [presentStep, hw, hb]

theorem runOps_inv (ops : List Op) : inv (runOps ops) = true :=
  (runOps_aux 0 ops nil false rfl (by simp [toList])).1

theorem presentAfter_iff (v : Int) (ops : List Op) :
    (presentAfter v ops = true ↔ v ∈ toList (runOps ops)) :=
  (runOps_aux v ops nil false rfl (by simp [toList])).2

/-! ### Construction from a sequence of insertions -/

theorem ofList_aux (ps : List (Int × Nat)) :
    ∀ t, inv t = true →
      inv (ps.foldl (fun t vp => add t vp.1 vp.2) t) = true
      ∧ ∀ x, (x ∈ toList (ps.foldl (fun t vp => add t vp.1 vp.2) t) ↔
          x ∈ ps.map Prod.fst ∨ x ∈ toList t) := by
  induction ps with
  | nil => intro t ht; exact ⟨ht, fun x => by simp⟩
  | cons vp ps ih =>
    intro t ht
    obtain ⟨h1, h2⟩ := ih (add t vp.1 vp.2) ((add_spec vp.1 vp.2 ht).2)
    refine ⟨h1, fun x => ?_⟩
    rw [show (vp :: ps).foldl (fun t vp => add t vp.1 vp.2) t
        = ps.foldl (fun t vp => add t vp.1 vp.2) (add t vp.1 vp.2) from rfl,
      h2 x, add_mem vp.1 vp.2 ht x]
    simp only [List.map_cons, List.mem_cons]
    tauto

theorem ofList_inv (ps : List (Int × Nat)) : inv (ofList ps) = true :=
  (ofList_aux ps nil rfl).1

theorem ofList_mem (ps : List (Int × Nat)) (x : Int) :
    x ∈ toList (ofList ps) ↔ x ∈ ps.map Prod.fst := by
  rw [show ofList ps = ps.foldl (fun t vp => add t vp.1 vp.2) nil from rfl,
    (ofList_aux ps nil rfl).2 x]
  simp [toList]

theorem ofList_sortedDistinct (ps : List (Int × Nat)) :
    toList (ofList ps) = sortedDistinct (ps.map Prod.fst) := by
  haveI : IsAntisymm Int (· < ·) := ⟨fun a b h h' => absurd h' (lt_asymm h)⟩
  have hsort1 : (toList (ofList ps)).Sorted (· < ·) :=
    toList_pairwise (inv_iff.1 (ofList_inv ps)).1
  have hsort2 : (sortedDistinct (ps.map Prod.fst)).Sorted (· < ·) :=
    Finset.sort_sorted_lt _
  have hperm : (toList (ofList ps)).Perm (sortedDistinct (ps.map Prod.fst)) := by
    refine (List.perm_ext_iff_of_nodup ?_ ?_).2 fun a => ?_
    · exact toList_nodup (inv_iff.1 (ofList_inv ps)).1
    · exact (ps.map Prod.fst).toFinset.sort_nodup (· ≤ ·)
    · rw [ofList_mem, sortedDistinct, Finset.mem_sort, List.mem_toFinset]
  exact List.eq_of_perm_of_sorted hperm hsort1 hsort2

theorem toList_mergeMany (ts : List Tree) : ∀ t : Tree,
    toList (mergeMany t ts) = toList t ++ (ts.map toList).flatten := by
  induction ts with
  | nil => intro t; simp [mergeMany]
  | cons u us ih =>
    intro t
    rw [show mergeMany t (u :: us) = mergeMany (merge t u) us from rfl,
      ih (merge t u), toList_merge]
    simp

theorem nodes_mergeMany (ts : List Tree) : ∀ t : Tree,
    nodes (mergeMany t ts) = nodes t ++ (ts.map nodes).flatten := by
  induction ts with
  | nil => intro t; simp [mergeMany]
  | cons u us ih =>
    intro t
    rw [show mergeMany t (u :: us) = mergeMany (merge t u) us from rfl,
      ih (merge t u), nodes_merge]
    simp

theorem mergeMany_inv (ts : List Tree) : ∀ t : Tree,
    (∀ u ∈ t :: ts, inv u = true) →
    (t :: ts).Pairwise (fun a b => ∀ x ∈ nodes a, ∀ y ∈ nodes b, x.1 < y.1) →
    inv (mergeMany t ts) = true := by
  induction ts with
  | nil =>
    intro t hinv _
    exact hinv t (List.mem_cons_self t [])
  | cons u us ih =>
    intro t hinv hord
    rw [show mergeMany t (u :: us) = mergeMany (merge t u) us from rfl]
    rw [List.pairwise_cons] at hord
    obtain ⟨h1, hord'⟩ := hord
    rw [List.pairwise_cons] at hord'
    obtain ⟨h2, h3⟩ := hord'
    refine ih (merge t u) ?_ ?_
    · intro w hw
      rcases List.mem_cons.1 hw with rfl | hw
      · exact merge_inv t u (h1 u (List.mem_cons_self u us))
          (hinv t (by simp)) (hinv u (by simp))
      · exact hinv w (by simp [hw])
    · rw [List.pairwise_cons]
      refine ⟨fun w hw x hx y hy => ?_, h3⟩
      rw [nodes_merge] at hx
      rcases List.mem_append.1 hx with hx | hx
      · exact h1 w (List.mem_cons_of_mem u hw) x hx y hy
      · exact h2 w hw x hx y hy

theorem split_center_shape (t : Tree) (v : Int) :
    (split t v).2.1 = nil ∨ ∃ p, (split t v).2.1 = node nil v p 1 nil := by
  induction t with
  | nil => exact Or.inl rfl
  | node l v0 p s r ihl ihr =>
    rcases lt_trichotomy v0 v with h1 | h1 | h1
    · rw [split_node_lt h1]; exact ihr
    · subst h1; rw [split_node_self]; exact Or.inr ⟨p, rfl⟩
    · rw [split_node_gt h1]; exact ihl

/-! ### Claim theorems -/

/-- C1. Claim: For every tree satisfying the search-tree, heap, and size
invariants and every pivot `v`, `split(tree, v)` returns (less, center,
greater) with: every value of `less` strictly below `v`; `center` empty or a
single node valued `v`, empty exactly when `v` is absent from the input;
every value of `greater` strictly above `v`; the three value lists pairwise
disjoint; the node multiset preserved; all invariants holding in each part;
and `split` total, also on the empty tree. -/
theorem claim_split_correct (t : Tree) (v : Int) (h : inv t = true) :
    (∀ x ∈ toList (split t v).1, x < v)
    ∧ (∀ x ∈ toList (split t v).2.2, v < x)
    ∧ ((split t v).2.1 = nil ∨ ∃ p, (split t v).2.1 = node nil v p 1 nil)
    ∧ ((split t v).2.1 = nil ↔ v ∉ toList t)
    ∧ (toList (split t v).1).Disjoint (toList (split t v).2.1)
    ∧ (toList (split t v).1).Disjoint (toList (split t v).2.2)
    ∧ (toList (split t v).2.1).Disjoint (toList (split t v).2.2)
    ∧ (nodes (split t v).1 ++ nodes (split t v).2.1 ++ nodes (split t v).2.2).Perm (nodes t)
    ∧ inv (split t v).1 = true ∧ inv (split t v).2.1 = true ∧ inv (split t v).2.2 = true
    ∧ split nil v = (nil, nil, nil) := by
  have hb := (inv_iff.1 h).1
  obtain ⟨t1, t2, t3⟩ := toList_split v hb
  have hlt : ∀ x ∈ toList (split t v).1, x < v := fun x hx => by
    rw [t1] at hx; simpa using (List.mem_filter.1 hx).2
  have heq : ∀ x ∈ toList (split t v).2.1, x = v := fun x hx => by
    rw [t2] at hx; simpa using (List.mem_filter.1 hx).2
  have hgt : ∀ x ∈ toList (split t v).2.2, v < x := fun x hx => by
    rw [t3] at hx; simpa using (List.mem_filter.1 hx).2
  refine ⟨hlt, hgt, split_center_shape t v, ?_, ?_, ?_, ?_, ?_, (split_inv v h).1,
    (split_inv v h).2.1, (split_inv v h).2.2, rfl⟩
  · constructor
    · intro hc hv
      exact (mem_toList_iff_center v hb).1 hv hc
    · intro hv
      by_contra hc
      exact hv ((mem_toList_iff_center v hb).2 hc)
  · intro a ha hc
    exact absurd (heq a hc) (ne_of_lt (hlt a ha))
  · intro a ha hc
    exact lt_asymm (hlt a ha) (hgt a hc)
  · intro a ha hc
    rw [heq a ha] at hc
    exact lt_irrefl v (hgt v hc)
  · rw [split_nodes_append v hb]

theorem claim_split_correct_witness :
    inv exTree = true
    ∧ ((∀ x ∈ toList (split exTree 5).1, x < 5)
      ∧ (∀ x ∈ toList (split exTree 5).2.2, (5 : Int) < x)
      ∧ ((split exTree 5).2.1 = nil ∨ ∃ p, (split exTree 5).2.1 = node nil 5 p 1 nil)
      ∧ ((split exTree 5).2.1 = nil ↔ (5 : Int) ∉ toList exTree)
      ∧ (toList (split exTree 5).1).Disjoint (toList (split exTree 5).2.1)
      ∧ (toList (split exTree 5).1).Disjoint (toList (split exTree 5).2.2)
      ∧ (toList (split exTree 5).2.1).Disjoint (toList (split exTree 5).2.2)
      ∧ (nodes (split exTree 5).1 ++ nodes (split exTree 5).2.1
          ++ nodes (split exTree 5).2.2).Perm (nodes exTree)
      ∧ inv (split exTree 5).1 = true ∧ inv (split exTree 5).2.1 = true
      ∧ inv (split exTree 5).2.2 = true
      ∧ split nil 5 = (nil, nil, nil)) :=
  ⟨by decide, claim_split_correct exTree 5 (by decide)⟩

/-- C2. Claim: Merging a non-empty sequence of invariant-satisfying trees whose
value ranges are strictly ascending (left-associative pairwise reduction)
yields a tree satisfying both invariants whose in-order node and value
sequences are the concatenations of the inputs'. -/
theorem claim_merge_correct (t : Tree) (ts : List Tree)
    (hinv : ∀ u ∈ t :: ts, inv u = true)
    (hord : (t :: ts).Pairwise (fun a b => ∀ x ∈ toList a, ∀ y ∈ toList b, x < y)) :
    inv (mergeMany t ts) = true
    ∧ toList (mergeMany t ts) = ((t :: ts).map toList).flatten
    ∧ nodes (mergeMany t ts) = ((t :: ts).map nodes).flatten := by
  have hord' : (t :: ts).Pairwise (fun a b => ∀ x ∈ nodes a, ∀ y ∈ nodes b, x.1 < y.1) := by
    refine hord.imp ?_
    intro a b hab x hx y hy
    refine hab x.1 ?_ y.1 ?_
    · rw [toList_eq_map]; exact List.mem_map_of_mem _ hx
    · rw [toList_eq_map]; exact List.mem_map_of_mem _ hy
  refine ⟨mergeMany_inv ts t hinv hord', ?_, ?_⟩
  · rw [toList_mergeMany]; simp
  · rw [nodes_mergeMany]; simp

theorem claim_merge_correct_witness :
    (∀ u ∈ exLeft :: [exMid, exRight], inv u = true)
    ∧ (exLeft :: [exMid, exRight]).Pairwise
        (fun a b => ∀ x ∈ toList a, ∀ y ∈ toList b, x < y)
    ∧ (inv (mergeMany exLeft [exMid, exRight]) = true
      ∧ toList (mergeMany exLeft [exMid, exRight])
          = ((exLeft :: [exMid, exRight]).map toList).flatten
      ∧ nodes (mergeMany exLeft [exMid, exRight])
          = ((exLeft :: [exMid, exRight]).map nodes).flatten) :=
  ⟨by decide, by decide, claim_merge_correct exLeft [exMid, exRight] (by decide) (by decide)⟩

/-- C3. Claim: Every completed facade operation — construction, `add`,
`contains`, `remove` (on both outcomes), `discard`, `next`, `prev` — leaves a
root satisfying all three invariants (search-tree order, heap order, size
consistency); `length` and indexed access do not modify the root at all. -/
theorem claim_facade_inv (root : Tree) (h : inv root = true) (v : Int) (p : Nat)
    (ps : List (Int × Nat)) :
    inv (ofList ps) = true
    ∧ inv (add root v p) = true
    ∧ inv (contains root v).2 = true
    ∧ (∀ t', remove root v = .ok t' → inv t' = true)
    ∧ (∀ t', remove root v = .error t' → inv t' = true)
    ∧ inv (discard root v) = true
    ∧ inv (nextVal root v).2 = true
    ∧ inv (prevVal root v).2 = true :=
  ⟨ofList_inv ps, (add_spec v p h).2, (contains_spec v h).2.2,
   fun t' ht' => ((remove_spec v h).2.1 t' ht').2,
   fun t' ht' => ((remove_spec v h).2.2 t' ht').2,
   (discard_spec v h).2, (nextVal_spec v h).2.2.2, (prevVal_spec v h).2.2.2⟩

theorem claim_facade_inv_witness :
    inv exTree = true
    ∧ (inv (ofList [(5, 9), (2, 3)]) = true
      ∧ inv (add exTree 3 7) = true
      ∧ inv (contains exTree 3).2 = true
      ∧ (∀ t', remove exTree 3 = .ok t' → inv t' = true)
      ∧ (∀ t', remove exTree 3 = .error t' → inv t' = true)
      ∧ inv (discard exTree 3) = true
      ∧ inv (nextVal exTree 3).2 = true
      ∧ inv (prevVal exTree 3).2 = true) :=
  ⟨by decide, claim_facade_inv exTree (by decide) 3 7 [(5, 9), (2, 3)]⟩

/-- C4. Claim: After any finite sequence of insertions into an initially empty
tree, the ordered materialization equals the ascending sequence of the
distinct inserted values; inserting an already-present value changes
nothing; and the length is the number of distinct values present. -/
theorem claim_add_sorted_distinct (ps : List (Int × Nat)) (v : Int) (p : Nat)
    (hv : v ∈ toList (ofList ps)) :
    toList (ofList ps) = sortedDistinct (ps.map Prod.fst)
    ∧ toList (add (ofList ps) v p) = toList (ofList ps)
    ∧ lengthOf (ofList ps) = (ps.map Prod.fst).toFinset.card := by
  have h0 := ofList_inv ps
  have hb := (inv_iff.1 h0).1
  refine ⟨ofList_sortedDistinct ps, ?_, ?_⟩
  · rw [(add_spec v p h0).1]
    conv_rhs => rw [← toList_decompose v hb, filter_eq_singleton v (toList_nodup hb) hv]
    simp
  · show sizeof (ofList ps) = _
    rw [← toList_length (inv_iff.1 h0).2.2, ofList_sortedDistinct ps, sortedDistinct,
      Finset.length_sort]

theorem claim_add_sorted_distinct_witness :
    (5 : Int) ∈ toList (ofList [(5, 9), (2, 3), (7, 4)])
    ∧ (toList (ofList [(5, 9), (2, 3), (7, 4)])
        = sortedDistinct ([((5 : Int), (9 : Nat)), (2, 3), (7, 4)].map Prod.fst)
      ∧ toList (add (ofList [(5, 9), (2, 3), (7, 4)]) 5 11)
          = toList (ofList [(5, 9), (2, 3), (7, 4)])
      ∧ lengthOf (ofList [(5, 9), (2, 3), (7, 4)])
          = ([((5 : Int), (9 : Nat)), (2, 3), (7, 4)].map Prod.fst).toFinset.card) :=
  ⟨(ofList_mem [(5, 9), (2, 3), (7, 4)] 5).2 (by decide),
   claim_add_sorted_distinct [(5, 9), (2, 3), (7, 4)] 5 11
     ((ofList_mem [(5, 9), (2, 3), (7, 4)] 5).2 (by decide))⟩

/-- C5. Claim: Indexed access behaves exactly like Python-style signed indexing
into the in-order value list: a negative rank is normalized by the size, a
normalized rank in `[0, size)` returns the value at that position of the
sorted distinct value list, and anything else — including every rank on the
empty tree — fails with the out-of-range error; the value list is indeed
sorted and duplicate-free. -/
theorem claim_getitem_rank (root : Tree) (k : Int) (h : inv root = true) :
    getItem root k = listIndex (toList root) k
    ∧ (toList root).Pairwise (· < ·)
    ∧ (toList root).Nodup :=
  ⟨getItem_eq_listIndex k h, toList_pairwise (inv_iff.1 h).1,
   toList_nodup (inv_iff.1 h).1⟩

theorem claim_getitem_rank_witness :
    inv exTree = true
    ∧ (getItem exTree (-1) = listIndex (toList exTree) (-1)
      ∧ (toList exTree).Pairwise (· < ·)
      ∧ (toList exTree).Nodup) :=
  ⟨by decide, claim_getitem_rank exTree (-1) (by decide)⟩

/-- C6. Claim: `next(v)` returns the least present value strictly above `v` and
fails with the no-such-element error exactly when none exists; `prev(v)`
symmetrically returns the greatest present value strictly below `v`; in all
cases the rebuilt root keeps the same value list and the invariants. -/
theorem claim_next_prev (root : Tree) (v : Int) (h : inv root = true) :
    ((∀ w, (nextVal root v).1 = .ok w ↔
        (w ∈ toList root ∧ v < w ∧ ∀ u ∈ toList root, v < u → w ≤ u))
      ∧ ((nextVal root v).1 = .error .noSuchElement ↔ ∀ u ∈ toList root, ¬ v < u)
      ∧ toList (nextVal root v).2 = toList root
      ∧ inv (nextVal root v).2 = true)
    ∧ ((∀ w, (prevVal root v).1 = .ok w ↔
        (w ∈ toList root ∧ w < v ∧ ∀ u ∈ toList root, u < v → u ≤ w))
      ∧ ((prevVal root v).1 = .error .noSuchElement ↔ ∀ u ∈ toList root, ¬ u < v)
      ∧ toList (prevVal root v).2 = toList root
      ∧ inv (prevVal root v).2 = true) :=
  ⟨nextVal_spec v h, prevVal_spec v h⟩

theorem claim_next_prev_witness :
    inv exTree = true
    ∧ (((∀ w, (nextVal exTree 4).1 = .ok w ↔
          (w ∈ toList exTree ∧ 4 < w ∧ ∀ u ∈ toList exTree, 4 < u → w ≤ u))
        ∧ ((nextVal exTree 4).1 = .error .noSuchElement ↔ ∀ u ∈ toList exTree, ¬ (4 : Int) < u)
        ∧ toList (nextVal exTree 4).2 = toList exTree
        ∧ inv (nextVal exTree 4).2 = true)
      ∧ ((∀ w, (prevVal exTree 4).1 = .ok w ↔
          (w ∈ toList exTree ∧ w < 4 ∧ ∀ u ∈ toList exTree, u < 4 → u ≤ w))
        ∧ ((prevVal exTree 4).1 = .error .noSuchElement ↔ ∀ u ∈ toList exTree, ¬ u < (4 : Int))
        ∧ toList (prevVal exTree 4).2 = toList exTree
        ∧ inv (prevVal exTree 4).2 = true)) :=
  ⟨by decide, claim_next_prev exTree 4 (by decide)⟩

/-- C7. Claim: `remove(v)` fails with the not-found error iff `v` is absent;
on success exactly the node holding `v` disappears: `v` is no longer
contained, every other value's membership is unchanged, and the length
drops by one; `discard(v)` produces the same tree as a successful `remove`
and is an error-free logical no-op when `v` is absent. -/
theorem claim_remove_discard (root : Tree) (v : Int) (h : inv root = true) :
    ((∃ t', remove root v = .ok t') ↔ v ∈ toList root)
    ∧ (∀ t', remove root v = .ok t' →
        v ∉ toList t'
        ∧ (∀ u, ¬ u = v → (u ∈ toList t' ↔ u ∈ toList root))
        ∧ (toList t').length + 1 = (toList root).length
        ∧ inv t' = true
        ∧ discard root v = t')
    ∧ (∀ t', remove root v = .error t' →
        toList t' = toList root ∧ inv t' = true ∧ discard root v = t') := by
  obtain ⟨hiff, hok, herr⟩ := remove_spec v h
  refine ⟨hiff, fun t' ht' => ?_, fun t' ht' => ?_⟩
  · obtain ⟨htl, hi⟩ := hok t' ht'
    have hv : v ∈ toList root := hiff.1 ⟨t', ht'⟩
    refine ⟨?_, ?_, ?_, hi, ?_⟩
    · rw [htl]
      intro hc
      have := (List.mem_filter.1 hc).2
      simp at this
    · intro u hu
      rw [htl, List.mem_filter]
      constructor
      · exact fun hx => hx.1
      · intro hx
        exact ⟨hx, by simpa using hu⟩
    · rw [htl, filter_ne_decompose v (inv_iff.1 h).1]
      conv_rhs => rw [← toList_decompose v (inv_iff.1 h).1,
        filter_eq_singleton v (toList_nodup (inv_iff.1 h).1) hv]
      simp [List.length_append]
      omega
    · show discard root v = t'
      unfold discard
      rw [ht']
  · obtain ⟨htl, hi⟩ := herr t' ht'
    refine ⟨htl, hi, ?_⟩
    unfold discard
    rw [ht']

theorem claim_remove_discard_witness :
    inv exTree = true
    ∧ (((∃ t', remove exTree 2 = .ok t') ↔ (2 : Int) ∈ toList exTree)
      ∧ (∀ t', remove exTree 2 = .ok t' →
          (2 : Int) ∉ toList t'
          ∧ (∀ u, ¬ u = (2 : Int) → (u ∈ toList t' ↔ u ∈ toList exTree))
          ∧ (toList t').length + 1 = (toList exTree).length
          ∧ inv t' = true
          ∧ discard exTree 2 = t')
      ∧ (∀ t', remove exTree 2 = .error t' →
          toList t' = toList exTree ∧ inv t' = true ∧ discard exTree 2 = t')) :=
  ⟨by decide, claim_remove_discard exTree 2 (by decide)⟩

/-- C8. Claim: For every history of mutating facade calls starting from the
empty tree, the membership test answers true exactly when the value was
added and not subsequently removed, never fails, and leaves the logical
content — the ordered value list, hence the length and every membership
answer — unchanged, even though the physical root may be rebuilt. -/
theorem claim_contains_history (ops : List Op) (v : Int) :
    ((contains (runOps ops) v).1 = true ↔ presentAfter v ops = true)
    ∧ toList (contains (runOps ops) v).2 = toList (runOps ops)
    ∧ lengthOf (contains (runOps ops) v).2 = lengthOf (runOps ops) := by
  have hI := runOps_inv ops
  obtain ⟨hmem, hnodes, hinv2⟩ := contains_spec v hI
  refine ⟨hmem.trans (presentAfter_iff v ops).symm, contains_toList v hI, ?_⟩
  show sizeof _ = sizeof _
  rw [← toList_length (inv_iff.1 hinv2).2.2, ← toList_length (inv_iff.1 hI).2.2,
    contains_toList v hI]

/-- C9. Claim: In a pairwise merge of two non-empty trees, the root of the
result is the second tree's root unless the first root's priority is
strictly greater — in particular the second tree's root wins every
equal-priority tie. -/
theorem claim_merge_tiebreak (ll : Tree) (lv : Int) (lp ls : Nat) (lr rl : Tree)
    (rv : Int) (rp rs : Nat) (rr : Tree) :
    rootInfo (merge (node ll lv lp ls lr) (node rl rv rp rs rr))
      = if lp > rp then some (lv, lp) else some (rv, rp) := by
  by_cases hc : lp > rp
  · rw [merge, if_pos hc, if_pos hc]
    rfl
  · rw [merge, if_neg hc, if_neg hc]
    rfl

/-- C10. Claim: Under the size-consistency invariant, the rank descent of
`get_kth_node` on a non-empty tree never dereferences an absent child: the
result is either a node or the out-of-range error raised by the bounds
check, and never the absent-child (`AttributeError`) failure. -/
theorem claim_get_kth_safe (t : Tree) (hs : sizeOk t = true) (ht : t ≠ nil) (k : Int) :
    get_kth_node t k ≠ .error .noneDeref
    ∧ ((∃ nd, get_kth_node t k = .ok nd) ∨ get_kth_node t k = .error .outOfRange) := by
  have h := get_kth_total hs ht k
  refine ⟨?_, h⟩
  rcases h with ⟨nd, hnd⟩ | hoob
  · rw [hnd]
    intro hc
    cases hc
  · rw [hoob]
    intro hc
    injection hc with hc
    cases hc

theorem claim_get_kth_safe_witness :
    sizeOk exTree = true ∧ exTree ≠ nil
    ∧ (get_kth_node exTree 5 ≠ .error .noneDeref
      ∧ ((∃ nd, get_kth_node exTree 5 = .ok nd)
        ∨ get_kth_node exTree 5 = .error .outOfRange)) :=
  ⟨by decide, by decide, claim_get_kth_safe exTree (by decide) (by decide) 5⟩

end CartesianTree
